import Mathlib

/-!
Verification of the substance document-editing core.

The development shallowly embeds the repository's data model and the
operations the specification talks about:

* the property-text model: text properties addressed by path, property-scoped
  annotations, the `insertText` transformation (src/document/transformations/
  insert_text.js) and the `deleteSelection` property case together with the
  annotation shift/clamp helpers (delete_selection.js and annotation_updates.js
  are not part of the sources at hand, so those two are modelled from the
  spec, sections 4.5-4.7);
* the container model for the fully-covered container-deletion edge case
  (modelled from the spec, section 4.6 Case B);
* `PathAdapter.delete` (src/basics/path_adapter.js);
* `NodeIndex` over a two-level `PathAdapter` (src/data/node_index.js,
  src/basics/path_adapter.js);
* the `EventEmitter` (emit / connect / on registration and dispatch order).

Machine integers do not occur: all offsets are Nat, priorities are Int
(JavaScript numbers used only as small integers here).
-/

namespace Substance

/-! ## JavaScript object helpers

JavaScript plain objects are modelled as association lists with unique keys,
in insertion order.  `objGet` is property read, `objSet` is property write
(replace in place or append), `objDel` is the `delete obj[key]` operator. -/

def objGet {κ β : Type} [DecidableEq κ] : List (κ × β) → κ → Option β
  | [], _ => none
  | (k', v') :: rest, k => if k' = k then some v' else objGet rest k

def objSet {κ β : Type} [DecidableEq κ] : List (κ × β) → κ → β → List (κ × β)
  | [], k, v => [(k, v)]
  | (k', v') :: rest, k, v =>
    if k' = k then (k, v) :: rest else (k', v') :: objSet rest k v

def objDel {κ β : Type} [DecidableEq κ] : List (κ × β) → κ → List (κ × β)
  | [], _ => []
  | (k', v') :: rest, k =>
    if k' = k then objDel rest k else (k', v') :: objDel rest k

/-! ## Property-text model

Text properties hold character sequences (`List Char`); a property-scoped
annotation references one property by `path` and a half-open character range
`[startOff, endOff)` (the source's `startOffset`/`endOffset`). -/

structure PAnno where
  aid : String
  path : List String
  startOff : Nat
  endOff : Nat
  deriving Repr, DecidableEq

/-- Selections of the property-selection fragment: either the null selection
or a property selection `{path, startOffset, endOffset}`; `isCollapsed()` iff
the two offsets agree.  Container selections live in the separate container
model below. -/
inductive Sel where
  | nullSel : Sel
  | prop (path : List String) (startOff endOff : Nat) : Sel
  deriving Repr, DecidableEq

/-- Document state of the property-text model: text properties by path, plus
the set of property-scoped annotations. -/
structure PDoc where
  props : List (List String × List Char)
  annos : List PAnno
  deriving Repr, DecidableEq

def getProp (d : PDoc) (p : List String) : Option (List Char) :=
  objGet d.props p

def setProp (d : PDoc) (p : List String) (t : List Char) : PDoc :=
  { d with props := objSet d.props p t }

/-- Text of the `update` diff op `{delete: {start, end}}`: remove the
half-open slice `[s, e)`. -/
def spliceDelete (t : List Char) (s e : Nat) : List Char :=
  t.take s ++ t.drop e

/-- Text of the `update` diff op `{insert: {offset, value}}`: splice `v` in at
offset `o`. -/
def spliceInsert (t : List Char) (o : Nat) (v : List Char) : List Char :=
  t.take o ++ v ++ t.drop o

/-- Modelled from the spec: the per-annotation adjustment performed by
`deleteSelection` for a deletion of the range `[s, e)` on the annotation's own
property (spec section 4.6 Case A; `delete_selection.js` and
`annotation_updates.js` are not under the sources at hand).  `none` means the
annotation is deleted.  The six cases of the spec, in order: fully before,
fully after, fully contained, overlapping the start boundary, overlapping the
end boundary, spanning the entire range. -/
def deletedTextAnno (s e : Nat) (a : PAnno) : Option PAnno :=
  let len := e - s
  if a.endOff ≤ s then some a
  else if e ≤ a.startOff then
    some { a with startOff := a.startOff - len, endOff := a.endOff - len }
  else if s ≤ a.startOff ∧ a.endOff ≤ e then none
  else if a.startOff < s ∧ a.endOff ≤ e then some { a with endOff := s }
  else if s ≤ a.startOff ∧ e < a.endOff then
    some { a with startOff := s, endOff := a.endOff - len }
  else some { a with endOff := a.endOff - len }

/-- Modelled from the spec: the property-selection case of `deleteSelection`
(spec section 4.6, Case A; `delete_selection.js` is not under the sources at
hand).  A collapsed selection is a no-op; otherwise the `[s, e)` slice of the
text property is deleted, each annotation on that property is adjusted by
`deletedTextAnno`, and the result selection is collapsed at `s`.  The
selection is assumed normalized (spec section 4.4), so `s ≤ e`. -/
def deleteSelectionProp (d : PDoc) (p : List String) (s e : Nat) : PDoc × Sel :=
  if s = e then (d, Sel.prop p s e)
  else
    let t := (getProp d p).getD []
    let d1 := setProp d p (spliceDelete t s e)
    let d2 := { d1 with
      annos := d1.annos.filterMap fun a =>
        if a.path = p then deletedTextAnno s e a else some a }
    (d2, Sel.prop p s s)

/-- Modelled from the spec: the per-annotation adjustment performed by
`Annotations.insertedText` for an insertion of `len` characters at offset `o`
on the annotation's own property (spec sections 4.5 step 4 and 4.7;
`annotation_updates.js` is not under the sources at hand).  An annotation
anchored at or after the offset is shifted right in both offsets, one ending
at or before the offset is untouched, and one whose range strictly contains
the offset has only its end shifted. -/
def insertedTextAnno (o len : Nat) (a : PAnno) : PAnno :=
  if o ≤ a.startOff then
    { a with startOff := a.startOff + len, endOff := a.endOff + len }
  else if a.endOff ≤ o then a
  else { a with endOff := a.endOff + len }

inductive TErr where
  | selMandatory : TErr
  | textMandatory : TErr
  deriving Repr, DecidableEq

/-- Embedding of `insertText`
(src/document/transformations/insert_text.js, lines 6-41): mandatory-argument
checks, `deleteSelection` on a non-collapsed selection, initialization of an
undefined text property to the empty string, the `{insert: {offset, value}}`
update, the `Annotations.insertedText` adjustment of the annotations on the
property, and the resulting collapsed selection at `offset + length(text)`. -/
def insertText (d : PDoc) (sel : Sel) (text : List Char) :
    Except TErr (PDoc × Sel) :=
  match sel with
  | Sel.nullSel => Except.error TErr.selMandatory
  | Sel.prop p s e =>
    if text.isEmpty then Except.error TErr.textMandatory
    else
      -- selections are normalized (spec section 4.4: getRange yields
      -- start.offset ≤ end.offset), so the collapsed offset after an
      -- optional deleteSelection is the start offset s in both branches
      let d1 := if s ≠ e then (deleteSelectionProp d p s e).1 else d
      let o := s
      let d2 := if getProp d1 p = none then setProp d1 p [] else d1
      let d3 := setProp d2 p (spliceInsert ((getProp d2 p).getD []) o text)
      let d4 := { d3 with
        annos := d3.annos.map fun a =>
          if a.path = p then insertedTextAnno o text.length a else a }
      Except.ok (d4, Sel.prop p (o + text.length) (o + text.length))

/-! ## Container model

The fully-covered container-deletion edge case of `deleteSelection`
(spec section 4.6 Case B).  Nodes are typed records owning a text property
`content`; the container holds node ids in display order; the schema is
represented by its `getDefaultTextType()` answer. -/

structure CNode where
  nid : String
  ntype : String
  content : List Char
  deriving Repr, DecidableEq

structure CDoc where
  container : List String
  nodes : List (String × CNode)
  defaultTextType : String
  deriving Repr, DecidableEq

/-- Modelled from the spec: the container-selection case of `deleteSelection`
(spec section 4.6 Case B; `delete_selection.js` is not under the sources at
hand).  The selected nodes are the container entries at positions `i` through
`j` (their paths and the container order determine these positions via
`getPosition`).  When every selected node is fully covered (`startOff = 0`
and `endOff` equals the length of the last node's text), all selected nodes
are removed, a single fresh node of the schema's default text type with empty
text is inserted at the position of the first removed node, and the result
selection collapses to offset 0 inside it.  Otherwise the head of the first
node is merged with the tail of the last node into the first node and the
other selected nodes are removed, with the selection collapsing at
`startOff` inside the first node. -/
def deleteContainerSel (d : CDoc) (i j startOff endOff : Nat)
    (freshId : String) : CDoc × Sel :=
  let selIds := (d.container.drop i).take (j + 1 - i)
  let startId := (d.container.get? i).getD ""
  let endId := (d.container.get? j).getD ""
  let endLen := ((objGet d.nodes endId).map (fun n => n.content.length)).getD 0
  if startOff = 0 ∧ endOff = endLen then
    let fresh : CNode := { nid := freshId, ntype := d.defaultTextType, content := [] }
    let d' : CDoc := { d with
      container := d.container.take i ++ [freshId] ++ d.container.drop (j+1),
      nodes := (freshId, fresh) :: d.nodes.filter (fun kv => kv.1 ∉ selIds) }
    (d', Sel.prop [freshId, "content"] 0 0)
  else
    let startText := ((objGet d.nodes startId).map (fun n => n.content)).getD []
    let endText := ((objGet d.nodes endId).map (fun n => n.content)).getD []
    let merged := startText.take startOff ++ endText.drop endOff
    let d' : CDoc := { d with
      container := d.container.take (i+1) ++ d.container.drop (j+1),
      nodes := (d.nodes.filter (fun kv => kv.1 ∉ selIds.drop 1)).map
        (fun kv => if kv.1 = startId then (kv.1, { kv.2 with content := merged }) else kv) }
    (d', Sel.prop [startId, "content"] startOff startOff)

/-! ## PathAdapter.delete

JavaScript values restricted to what `PathAdapter` traverses: plain objects
and primitives, a primitive carrying only its truthiness. -/

inductive JVal where
  | obj : List (String × JVal) → JVal
  | prim : Bool → JVal
  deriving Repr

/-- Truthiness: objects are truthy, a primitive carries its own. -/
def JVal.truthy : JVal → Bool
  | .obj _ => true
  | .prim b => b

/-- Property read: on a primitive every property reads as undefined. -/
def jget (v : JVal) (k : String) : Option JVal :=
  match v with
  | .obj fs => objGet fs k
  | .prim _ => none

/-- Embedding of `PathAdapter._resolve(path)` without the create flag
(path_adapter.js lines 38-59, `childrenScope` false): walk the path prefix,
returning undefined as soon as a key is missing. -/
def paResolve : JVal → List String → Option JVal
  | ctx, [] => some ctx
  | ctx, k :: rest =>
    match jget ctx k with
    | none => none
    | some v => paResolve v rest

/-- Rebuild the root after mutating the value resolved at a path that
`paResolve` reached (the functional counterpart of mutating the resolved
context in place). -/
def jApplyAt : JVal → List String → (JVal → JVal) → JVal
  | ctx, [], f => f ctx
  | ctx, k :: rest, f =>
    match ctx with
    | .obj fs =>
      match objGet fs k with
      | none => .obj fs
      | some v => .obj (objSet fs k (jApplyAt v rest f))
    | .prim b => .prim b

inductive JsErr where
  | invalidPath : JsErr
  | typeErr : JsErr
  deriving Repr, DecidableEq

/-- Embedding of `PathAdapter.delete(path, strict)` for array paths
(path_adapter.js lines 86-97).  The source guard is
`if (strict && !obj || !obj[key]) throw new Error('Invalid path.')`, which by
operator precedence is `(strict && !obj) || !obj[key]`: when the resolved
context is undefined, strict mode throws Invalid path and non-strict mode
evaluates `obj[key]` on undefined, a TypeError; when the context exists but
`obj[key]` is missing or falsy it throws Invalid path regardless of the
strict flag.  Only a truthy stored value is actually deleted. -/
def paDelete (root : JVal) (path : List String) (strict : Bool) :
    Except JsErr JVal :=
  match paResolve root path.dropLast with
  | none => if strict then .error .invalidPath else .error .typeErr
  | some ctx =>
    let key := path.getLast?.getD ""
    if ((jget ctx key).map JVal.truthy).getD false = false then
      .error .invalidPath
    else
      .ok (jApplyAt root path.dropLast (fun c =>
        match c with
        | .obj fs => .obj (objDel fs key)
        | .prim b => .prim b))

/-! ## NodeIndex

The index is a two-level `PathAdapter`: property value to bucket, bucket
mapping node id to node (node_index.js).  A node's indexing property may be
scalar or multi-valued; the node's type drives the select predicate
(`this.select` consults `this.type` and the node's class only). -/

inductive PropValue where
  | scalar : String → PropValue
  | multi : List String → PropValue
  deriving Repr, DecidableEq

/-- Normalization `if (!isArray(values)) { values = [values]; }` used by
create, delete and update (node_index.js lines 109-111, 128-130, 148-158). -/
def normValues : PropValue → List String
  | .scalar s => [s]
  | .multi ss => ss

structure DNode where
  nodeId : String
  nodeType : String
  propVal : PropValue
  deriving Repr, DecidableEq

abbrev Bucket := List (String × DNode)

abbrev NIndex := List (String × Bucket)

/-- PathAdapter.set for the two-element path `[value, node.id]`
(path_adapter.js lines 38-59 and 77-84): `_resolve` creates the first-level
bucket on demand, then the node is written under its id. -/
def paSet2 (idx : NIndex) (v id : String) (n : DNode) : NIndex :=
  objSet idx v (objSet ((objGet idx v).getD []) id n)

/-- PathAdapter.delete for the two-element path `[value, node.id]` with the
strict flag unset, as node_index.js calls it: by the precedence of
`strict && !obj || !obj[key]`, a missing first level is a TypeError and a
missing id in an existing bucket throws Invalid path even without strict. -/
def paDelete2 (idx : NIndex) (v id : String) : Except JsErr NIndex :=
  match objGet idx v with
  | none => .error .typeErr
  | some bucket =>
    match objGet bucket id with
    | none => .error .invalidPath
    | some _ => .ok (objSet idx v (objDel bucket id))

/-- The value loop shared by create and the second half of update
(`each(values, function(value) { this.index.set([value, node.id], node); })`,
node_index.js lines 113-115 and 159-161). -/
def setValues (idx : NIndex) (id : String) (n : DNode) (vs : List String) : NIndex :=
  vs.foldl (fun acc v => paSet2 acc v id n) idx

/-- The value loop shared by delete and the first half of update
(`each(values, function(value) { this.index.delete([value, node.id]); })`,
node_index.js lines 132-134 and 152-154); a throw aborts the loop. -/
def delValues (idx : NIndex) (id : String) : List String → Except JsErr NIndex
  | [] => Except.ok idx
  | v :: vs =>
    match paDelete2 idx v id with
    | Except.error e => Except.error e
    | Except.ok idx1 => delValues idx1 id vs

/-- NodeIndex.create (node_index.js lines 108-116). -/
def niCreate (idx : NIndex) (n : DNode) : NIndex :=
  setValues idx n.nodeId n (normValues n.propVal)

/-- NodeIndex.delete (node_index.js lines 127-135). -/
def niDelete (idx : NIndex) (n : DNode) : Except JsErr NIndex :=
  delValues idx n.nodeId (normValues n.propVal)

/-- NodeIndex.update (node_index.js lines 146-162): no-op unless the updated
path's property segment matches the indexing property and the select
predicate accepts the node; otherwise remove the entries for the old values
and insert the node under the new values. -/
def niUpdate (sel : String → Bool) (prop : String) (idx : NIndex) (n : DNode)
    (pathProp : String) (newV oldV : PropValue) : Except JsErr NIndex :=
  if ¬ sel n.nodeType ∨ pathProp ≠ prop then .ok idx
  else
    match delValues idx n.nodeId (normValues oldV) with
    | .error e => .error e
    | .ok idx1 => .ok (setValues idx1 n.nodeId n (normValues newV))

/-- Object.extend as used by getAll: copy the source's properties over the
target. -/
def jsExtend (tgt src : Bucket) : Bucket :=
  src.foldl (fun acc kv => objSet acc kv.1 kv.2) tgt

/-- NodeIndex.getAll (node_index.js lines 91-97): merge every bucket. -/
def niGetAll (idx : NIndex) : Bucket :=
  idx.foldl (fun acc kv => jsExtend acc kv.2) []

/-- NodeIndex.get (node_index.js lines 78-82): without a path, getAll; with a
bucket path `[value]`, the bucket or `{}`. -/
def niGet (idx : NIndex) : Option String → Bucket
  | none => niGetAll idx
  | some v => (objGet idx v).getD []

/-- NodeIndex.reset (node_index.js lines 33-44): clear, then scan all nodes
applying the select predicate. -/
def niReset (sel : String → Bool) (store : List DNode) : NIndex :=
  store.foldl (fun idx n => if sel n.nodeType then niCreate idx n else idx) []

abbrev Store := List DNode

def findNode (st : Store) (id : String) : Option DNode :=
  st.find? (fun n => n.nodeId = id)

/-- Document change notifications driving the index: node creation, node
deletion, and a property update carrying the property-path segment and the
new value. -/
inductive DocEvt where
  | makeNode : DNode → DocEvt
  | killNode : String → DocEvt
  | setVal : String → String → PropValue → DocEvt
  deriving Repr

/-- Modelled from the spec: the document's commit-time notification dispatch
(document and data sources are not at hand; spec sections 2, 4.2 and 3).  On
node creation and deletion the document notifies the index for nodes its
select predicate accepts; on a property update it calls `index.update` with
the updated node, the property segment of the updated path, and the new and
old values.  The store keeps only the indexing property's value, so the old
value passed for a non-matching property segment is a placeholder, which
`niUpdate` ignores. -/
def applyEvt (sel : String → Bool) (prop : String) :
    Store × NIndex → DocEvt → Except JsErr (Store × NIndex)
  | (st, idx), .makeNode n =>
    let idx' := if sel n.nodeType then niCreate idx n else idx
    .ok (st ++ [n], idx')
  | (st, idx), .killNode id =>
    match findNode st id with
    | none => .error .typeErr
    | some n =>
      match (if sel n.nodeType then niDelete idx n else .ok idx) with
      | .error e => .error e
      | .ok idx' => .ok (st.filter (fun m => m.nodeId ≠ id), idx')
  | (st, idx), .setVal id p nv =>
    match findNode st id with
    | none => .error .typeErr
    | some n =>
      let n' := if p = prop then { n with propVal := nv } else n
      match niUpdate sel prop idx n' p nv n.propVal with
      | .error e => .error e
      | .ok idx' =>
        .ok (st.map (fun m => if m.nodeId = id then
              (if p = prop then { m with propVal := nv } else m) else m), idx')

def runEvts (sel : String → Bool) (prop : String)
    (init : Store × NIndex) (evs : List DocEvt) :
    Except JsErr (Store × NIndex) :=
  evs.foldlM (applyEvt sel prop) init

/-- The store component of a committed event, independent of the index. -/
def storeStep (prop : String) (st : Store) : DocEvt → Store
  | .makeNode n => st ++ [n]
  | .killNode id => st.filter (fun m => m.nodeId ≠ id)
  | .setVal id p nv => st.map (fun m => if m.nodeId = id then
      (if p = prop then { m with propVal := nv } else m) else m)

/-- Store well-formedness: unique node ids, and no indexing property holds
duplicate values (a scalar value always satisfies this). -/
def WfStore (st : Store) : Prop :=
  (st.map (fun n => n.nodeId)).Nodup ∧ ∀ n ∈ st, (normValues n.propVal).Nodup

/-- Well-formed notification: creation of a fresh node, deletion or update of
an existing one, with duplicate-free property values. -/
def WfEvt (prop : String) (st : Store) : DocEvt → Prop
  | .makeNode n => findNode st n.nodeId = none ∧ (normValues n.propVal).Nodup
  | .killNode id => (findNode st id).isSome
  | .setVal id p nv => (findNode st id).isSome ∧
      (p = prop → (normValues nv).Nodup)

def WfEvts (prop : String) : Store → List DocEvt → Prop
  | _, [] => True
  | st, ev :: evs => WfEvt prop st ev ∧ WfEvts prop (storeStep prop st ev) evs

/-- Direct reading of a bucket entry in the two-level index. -/
def bucketLookup (idx : NIndex) (v id : String) : Option DNode :=
  (objGet idx v).bind (fun b => objGet b id)

/-- What the index should answer: the currently existing selected node with
this id, provided the queried value is among its indexing property values. -/
def expectedLookup (sel : String → Bool) (st : Store) (v id : String) :
    Option DNode :=
  (findNode st id).bind (fun n =>
    if sel n.nodeType ∧ v ∈ normValues n.propVal then some n else none)

/-- The synchronization invariant between a document's node store and its
incrementally maintained index. -/
def InSync (sel : String → Bool) (st : Store) (idx : NIndex) : Prop :=
  ∀ v id, bucketLookup idx v id = expectedLookup sel st v id

/-! ## EventEmitter

Listener bindings for one event key: the registration tag stands for the
listener function, `priority` is the stored priority, and `throws` abstracts
the listener's behavior when invoked. -/

structure EBinding where
  tag : Nat
  priority : Int
  throws : Bool
  deriving Repr, DecidableEq

/-- Embedding of `EventEmitter.emit` (the unnamed basics source, lines
115-127): the bindings list is cloned and each listener invoked in order.
The source has no try/catch, so a throwing listener aborts the loop and the
exception propagates.  The result is the list of invoked tags together with
the tag of the throwing listener, if any. -/
def emitRun : List EBinding → List Nat × Option Nat
  | [] => ([], none)
  | b :: rest =>
    if b.throws then ([b.tag], some b.tag)
    else
      let r := emitRun rest
      (b.tag :: r.1, r.2)

/-- Emit on the emitter's binding state: `emit` only reads a clone of the
bindings (`this.__events__[event].slice()`), never writing `__events__`, so
the state after emit is the state before. -/
def emitState (bs : List EBinding) : (List Nat × Option Nat) × List EBinding :=
  (emitRun bs, bs)

/-- The comparator `byPriorityDescending(a, b) = b.priority - a.priority`
(lines 129-133) as the ordering it sorts by. -/
def lePriorityDesc (a b : EBinding) : Bool := decide (b.priority ≤ a.priority)

/-- Array.prototype.sort with `byPriorityDescending` as called at the end of
connect and on (lines 159 and 169): a stable sort, descending by priority
(stability as the ECMAScript specification guarantees for
Array.prototype.sort). -/
def jsSortDesc (l : List EBinding) : List EBinding :=
  l.mergeSort lePriorityDesc

/-- One registration: the priority the caller asked for in `options`, and
whether it went through `on` rather than `connect`. -/
structure Reg where
  requested : Int
  viaOn : Bool
  deriving Repr, DecidableEq

/-- The priority actually recorded by `_on`: `connect` reads
`options.priority` when called with three arguments (lines 150-154), but the
four-argument form of `on` never reads `options` because its guard
`arguments.length === 3` is false there (lines 163-170), so such a binding
keeps the default priority 0. -/
def effPriority (r : Reg) : Int := if r.viaOn then 0 else r.requested

/-- One registration step for a fixed event: `_on` pushes the binding, then
connect/on sort that event's binding list. -/
def regStep (bs : List EBinding) (tag : Nat) (r : Reg) : List EBinding :=
  jsSortDesc (bs ++ [{ tag := tag, priority := effPriority r, throws := false }])

def regAux : Nat → List EBinding → List Reg → List EBinding
  | _, bs, [] => bs
  | k, bs, r :: rest => regAux (k+1) (regStep bs k r) rest

/-- Run a sequence of registrations for one event against an initially empty
emitter, tagging listeners by registration order. -/
def registerAll (regs : List Reg) : List EBinding := regAux 0 [] regs

/-- The bindings a registration sequence asks for, in registration order:
tag k for the k-th registration, with its effective priority. -/
def expectedBindings : Nat → List Reg → List EBinding
  | _, [] => []
  | k, r :: rest =>
    { tag := k, priority := effPriority r, throws := false } ::
      expectedBindings (k+1) rest

/-! ## Basic lemmas about the JavaScript object model -/

theorem objGet_objSet {κ β : Type} [DecidableEq κ]
    (l : List (κ × β)) (k k' : κ) (v : β) :
    objGet (objSet l k v) k' = if k' = k then some v else objGet l k' := by
  induction l with
  | nil =>
    simp only [objSet, objGet]
    by_cases h : k' = k
    · rw [if_pos h.symm, if_pos h]
    · rw [if_neg (fun hh => h hh.symm), if_neg h]
  | cons kv rest ih =>
    rcases kv with ⟨a, b⟩
    by_cases ha : a = k
    · subst ha
      simp only [objSet, if_pos rfl, objGet]
      by_cases h : k' = a
      · rw [if_pos h.symm, if_pos h]
      · simp only [if_neg h, if_neg (fun hh : a = k' => h hh.symm)]
    · simp only [objSet, if_neg ha, objGet, ih]
      by_cases h2 : a = k'
      · rw [if_pos h2, if_pos h2,
          if_neg (fun hh : k' = k => ha (h2.trans hh))]
      · rw [if_neg h2, if_neg h2]

theorem objGet_objSet_self {κ β : Type} [DecidableEq κ]
    (l : List (κ × β)) (k : κ) (v : β) : objGet (objSet l k v) k = some v := by
  rw [objGet_objSet, if_pos rfl]

theorem objGet_objDel {κ β : Type} [DecidableEq κ]
    (l : List (κ × β)) (k k' : κ) :
    objGet (objDel l k) k' = if k' = k then none else objGet l k' := by
  induction l with
  | nil => simp [objDel, objGet]
  | cons kv rest ih =>
    rcases kv with ⟨a, b⟩
    by_cases ha : a = k
    · subst ha
      simp only [objDel, eq_self_iff_true, if_true, ih, objGet]
      by_cases h : k' = a
      · simp only [if_pos h]
      · simp only [if_neg h, if_neg (fun hh : a = k' => h hh.symm)]
    · simp only [objDel, if_neg ha, objGet, ih]
      by_cases h2 : a = k'
      · rw [if_pos h2, if_pos h2,
          if_neg (fun hh : k' = k => ha (h2.trans hh))]
      · rw [if_neg h2, if_neg h2]

theorem getProp_setProp (d : PDoc) (p p' : List String) (t : List Char) :
    getProp (setProp d p t) p' = if p' = p then some t else getProp d p' := by
  simp [getProp, setProp, objGet_objSet]

theorem annos_setProp (d : PDoc) (p : List String) (t : List Char) :
    (setProp d p t).annos = d.annos := rfl

theorem objSet_objSet {κ β : Type} [DecidableEq κ]
    (l : List (κ × β)) (k : κ) (v w : β) :
    objSet (objSet l k v) k w = objSet l k w := by
  induction l with
  | nil => simp [objSet]
  | cons kv rest ih =>
    rcases kv with ⟨a, b⟩
    by_cases ha : a = k
    · simp [objSet, ha]
    · simp [objSet, ha, ih]

/-- Closed form of `insertText` on a collapsed property selection. -/
theorem insertText_eq (d : PDoc) (p : List String) (o : Nat)
    (t : List Char) (ht : t ≠ []) :
    insertText d (Sel.prop p o o) t =
      Except.ok
        ({ props := objSet d.props p (spliceInsert ((getProp d p).getD []) o t),
           annos := d.annos.map fun a =>
             if a.path = p then insertedTextAnno o t.length a else a },
         Sel.prop p (o + t.length) (o + t.length)) := by
  have hne : t.isEmpty = false := by
    cases t with
    | nil => exact absurd rfl ht
    | cons c cs => rfl
  by_cases hinit : getProp d p = none
  · simp only [insertText, hne, Bool.false_eq_true, if_false, ne_eq,
      not_true_eq_false, if_neg (fun h : o ≠ o => h rfl), hinit,
      eq_self_iff_true, if_true]
    simp only [setProp, getProp, objGet_objSet_self, hinit, Option.getD_none,
      Option.getD_some, objSet_objSet]
  · simp only [insertText, hne, Bool.false_eq_true, if_false, ne_eq,
      not_true_eq_false, if_neg (fun h : o ≠ o => h rfl), hinit, if_neg hinit]
    simp only [setProp]

/-- C3: for every collapsed property selection at offset o on path p and every
non-empty text t, insertText splices t into the text property at offset o
(initializing the property to the empty sequence first if it was undefined)
and returns a property selection on path p collapsed at offset
o + length(t). -/
theorem insertText_collapsed_spec (d : PDoc) (p : List String) (o : Nat)
    (t : List Char) (ht : t ≠ []) :
    (insertText d (Sel.prop p o o) t).map (fun r => (getProp r.1 p, r.2)) =
      Except.ok
        (some (((getProp d p).getD []).take o ++ t ++ ((getProp d p).getD []).drop o),
         Sel.prop p (o + t.length) (o + t.length)) := by
  rw [insertText_eq d p o t ht]
  simp [getProp, objGet_objSet_self, spliceInsert, Except.map]

/-- Witness for C3 at a concrete input: inserting "x" into an uninitialized
property at offset 0 yields the text "x" and a selection collapsed at 1. -/
theorem insertText_collapsed_spec_witness :
    (['x'] : List Char) ≠ [] ∧
    (insertText { props := [], annos := [] } (Sel.prop ["p1"] 0 0) ['x']).map
        (fun r => (getProp r.1 ["p1"], r.2)) =
      Except.ok (some ['x'], Sel.prop ["p1"] 1 1) :=
  ⟨by decide,
   insertText_collapsed_spec { props := [], annos := [] } ["p1"] 0 ['x'] (by decide)⟩

/-- C4: for an insertion of length len at offset o on an annotation's
property, an annotation anchored entirely at or after o is shifted right by
len in both offsets, an annotation ending strictly before o is unchanged, and
an annotation whose range strictly contains o keeps its start and has only
its end shifted right by len. -/
theorem insertedTextAnno_spec (o len : Nat) (a : PAnno)
    (hw : a.startOff ≤ a.endOff) :
    (o ≤ a.startOff →
      insertedTextAnno o len a =
        { a with startOff := a.startOff + len, endOff := a.endOff + len }) ∧
    (a.endOff < o → insertedTextAnno o len a = a) ∧
    (a.startOff < o → o < a.endOff →
      insertedTextAnno o len a = { a with endOff := a.endOff + len }) := by
  refine ⟨fun h1 => ?_, fun h2 => ?_, fun h3 h4 => ?_⟩
  · rw [insertedTextAnno, if_pos h1]
  · rw [insertedTextAnno, if_neg (by omega), if_pos (by omega)]
  · rw [insertedTextAnno, if_neg (by omega), if_neg (by omega)]

/-- Witness for C4 at concrete inputs: inserting 3 characters at offset 2
shifts an annotation at offsets 4..6 to 7..9, leaves an annotation at 0..1
unchanged, and grows an annotation at 1..5 to 1..8. -/
theorem insertedTextAnno_spec_witness :
    ((2:Nat) ≤ 4 ∧
      insertedTextAnno 2 3 { aid := "a", path := ["p"], startOff := 4, endOff := 6 } =
        { aid := "a", path := ["p"], startOff := 7, endOff := 9 }) ∧
    ((1:Nat) < 2 ∧
      insertedTextAnno 2 3 { aid := "b", path := ["p"], startOff := 0, endOff := 1 } =
        { aid := "b", path := ["p"], startOff := 0, endOff := 1 }) ∧
    ((1:Nat) < 2 ∧ (2:Nat) < 5 ∧
      insertedTextAnno 2 3 { aid := "c", path := ["p"], startOff := 1, endOff := 5 } =
        { aid := "c", path := ["p"], startOff := 1, endOff := 8 }) :=
  ⟨⟨by decide,
    (insertedTextAnno_spec 2 3 { aid := "a", path := ["p"], startOff := 4, endOff := 6 }
      (by decide)).1 (by decide)⟩,
   ⟨by decide,
    (insertedTextAnno_spec 2 3 { aid := "b", path := ["p"], startOff := 0, endOff := 1 }
      (by decide)).2.1 (by decide)⟩,
   ⟨by decide, by decide,
    (insertedTextAnno_spec 2 3 { aid := "c", path := ["p"], startOff := 1, endOff := 5 }
      (by decide)).2.2 (by decide) (by decide)⟩⟩

/-- C1: deleting a non-collapsed property selection [s, e) over a text
property holding T yields text T[0:s] ++ T[e:], returns a selection collapsed
at offset s on the same path, and adjusts every annotation on that property
as specified: fully before unchanged; fully after shifted left by e - s in
both offsets; starting before and ending inside the range, end clamped to s;
starting inside and ending after, start clamped to s and end shifted left by
e - s; fully contained annotations deleted. -/
theorem deleteSelectionProp_spec (d : PDoc) (p : List String) (s e : Nat)
    (h : s < e) :
    (getProp (deleteSelectionProp d p s e).1 p =
        some (((getProp d p).getD []).take s ++ ((getProp d p).getD []).drop e)) ∧
    ((deleteSelectionProp d p s e).2 = Sel.prop p s s) ∧
    ((deleteSelectionProp d p s e).1.annos =
        d.annos.filterMap fun a =>
          if a.path = p then deletedTextAnno s e a else some a) ∧
    (∀ a : PAnno, a.endOff ≤ s → deletedTextAnno s e a = some a) ∧
    (∀ a : PAnno, a.startOff ≤ a.endOff → e ≤ a.startOff →
        deletedTextAnno s e a =
          some { a with startOff := a.startOff - (e - s),
                        endOff := a.endOff - (e - s) }) ∧
    (∀ a : PAnno, a.startOff < s → s ≤ a.endOff → a.endOff < e →
        deletedTextAnno s e a = some { a with endOff := s }) ∧
    (∀ a : PAnno, s ≤ a.startOff → a.startOff < e → e < a.endOff →
        deletedTextAnno s e a =
          some { a with startOff := s, endOff := a.endOff - (e - s) }) ∧
    (∀ a : PAnno, s ≤ a.startOff → s < a.endOff → a.startOff < e → a.endOff ≤ e →
        deletedTextAnno s e a = none) := by
  have hne : ¬ (s = e) := by omega
  refine ⟨?_, ?_, ?_, ?_, ?_, ?_, ?_, ?_⟩
  · simp [deleteSelectionProp, hne, getProp, setProp, objGet_objSet_self,
      spliceDelete]
  · simp [deleteSelectionProp, hne]
  · simp [deleteSelectionProp, hne, setProp]
  · intro a h1
    simp only [deletedTextAnno]
    rw [if_pos h1]
  · intro a hw h1
    simp only [deletedTextAnno]
    rw [if_neg (by omega), if_pos h1]
  · intro a h1 h2 h3
    by_cases hae : a.endOff ≤ s
    · have he : a.endOff = s := by omega
      simp only [deletedTextAnno, if_pos hae]
      cases a
      simp_all
    · simp only [deletedTextAnno]
      rw [if_neg hae, if_neg (by omega), if_neg (by omega), if_pos (by omega)]
  · intro a h1 h2 h3
    simp only [deletedTextAnno]
    rw [if_neg (by omega), if_neg (by omega), if_neg (by omega),
      if_neg (by omega), if_pos (by omega)]
  · intro a h1 h2 h3 h4
    simp only [deletedTextAnno]
    rw [if_neg (by omega), if_neg (by omega), if_pos (by omega)]

/-- Witness for C1 at a concrete input: deleting [1, 3) from "abcd" gives
"ad" with the selection collapsed at 1, and shifts an annotation at 3..4
(fully after the range) to 1..2. -/
theorem deleteSelectionProp_spec_witness :
    (1:Nat) < 3 ∧
    getProp (deleteSelectionProp
        { props := [(["p"], ['a','b','c','d'])], annos := [] }
        ["p"] 1 3).1 ["p"] = some ['a','d'] ∧
    (deleteSelectionProp
        { props := [(["p"], ['a','b','c','d'])], annos := [] }
        ["p"] 1 3).2 = Sel.prop ["p"] 1 1 ∧
    deletedTextAnno 1 3 { aid := "x", path := ["p"], startOff := 3, endOff := 4 } =
      some { aid := "x", path := ["p"], startOff := 1, endOff := 2 } := by
  have h := deleteSelectionProp_spec
    { props := [(["p"], ['a','b','c','d'])], annos := [] } ["p"] 1 3 (by decide)
  refine ⟨by decide, by simpa using h.1, h.2.1, ?_⟩
  have h5 := h.2.2.2.2.1 { aid := "x", path := ["p"], startOff := 3, endOff := 4 }
    (by decide) (by decide)
  simpa using h5

theorem filterMap_id_of_mem {α : Type} (l : List α) (f : α → Option α)
    (h : ∀ a ∈ l, f a = some a) : l.filterMap f = l := by
  induction l with
  | nil => rfl
  | cons x t ih =>
    rw [List.filterMap_cons, h x (by simp)]
    rw [ih (fun a ha => h a (by simp [ha]))]

/-- C5 counterexample: on text "ab" with a single annotation [0, 2], deleting
the range [1, 2) and reinserting "b" at offset 1 leaves the annotation at
[0, 1] instead of restoring [0, 2], although neither annotation boundary
(0 or 2) lies strictly inside [1, 2) — under either the open-interval or the
half-open reading of "strictly inside". -/
theorem roundTrip_counterexample :
    ((insertText
        (deleteSelectionProp
          ({ props := [(["p"], ['a','b'])],
             annos := [{ aid := "a0", path := ["p"], startOff := 0, endOff := 2 }] } : PDoc)
          ["p"] 1 2).1
        (deleteSelectionProp
          ({ props := [(["p"], ['a','b'])],
             annos := [{ aid := "a0", path := ["p"], startOff := 0, endOff := 2 }] } : PDoc)
          ["p"] 1 2).2
        ['b']).map (fun r => (getProp r.1 ["p"], r.1.annos)) =
      Except.ok (some ['a','b'],
        [{ aid := "a0", path := ["p"], startOff := 0, endOff := 1 }])) ∧
    (¬ ((1:Nat) < 0 ∧ (0:Nat) < 2)) ∧ (¬ ((1:Nat) < 2 ∧ (2:Nat) < 2)) ∧
    (¬ ((1:Nat) ≤ 0 ∧ (0:Nat) < 2)) ∧ (¬ ((1:Nat) ≤ 2 ∧ (2:Nat) < 2)) ∧
    ([{ aid := "a0", path := ["p"], startOff := 0, endOff := 1 }] : List PAnno) ≠
      [{ aid := "a0", path := ["p"], startOff := 0, endOff := 2 }] := by
  refine ⟨by rfl, by decide, by decide, by decide, by decide, by decide⟩

/-- C5 amended: for every text property with text T and well-formed
annotations, and every range [s, e) with s < e ≤ length T such that no
annotation boundary lies in the closed interval [s, e], applying
deleteSelection over [s, e) and then insertText of T[s:e] at the resulting
collapsed selection restores the text to T and every annotation's original
offsets. -/
theorem roundTrip_amended (d : PDoc) (p : List String) (s e : Nat)
    (T : List Char) (hT : getProp d p = some T) (hse : s < e)
    (hlen : e ≤ T.length)
    (hA : ∀ a ∈ d.annos, a.path = p →
        a.startOff ≤ a.endOff ∧
        (a.startOff < s ∨ e < a.startOff) ∧ (a.endOff < s ∨ e < a.endOff)) :
    (insertText (deleteSelectionProp d p s e).1 (deleteSelectionProp d p s e).2
        ((T.drop s).take (e - s))).map (fun r => (getProp r.1 p, r.1.annos)) =
      Except.ok (some T, d.annos) := by
  have hne : ¬ (s = e) := by omega
  have hslice : ((T.drop s).take (e - s)).length = e - s := by
    simp only [List.length_take, List.length_drop]
    omega
  have hsne : (T.drop s).take (e - s) ≠ [] := by
    intro hnil
    rw [hnil] at hslice
    simp at hslice
    omega
  -- the state after the deletion
  have hT' : objGet d.props p = some T := hT
  have hd1props : (deleteSelectionProp d p s e).1.props =
      objSet d.props p (T.take s ++ T.drop e) := by
    simp [deleteSelectionProp, hne, setProp, spliceDelete, getProp, hT']
  have hd1annos : (deleteSelectionProp d p s e).1.annos =
      d.annos.filterMap fun a =>
        if a.path = p then deletedTextAnno s e a else some a := by
    simp [deleteSelectionProp, hne, setProp]
  have hd1sel : (deleteSelectionProp d p s e).2 = Sel.prop p s s := by
    simp [deleteSelectionProp, hne]
  rw [hd1sel,
    insertText_eq (deleteSelectionProp d p s e).1 p s ((T.drop s).take (e - s)) hsne]
  have hget1 : getProp (deleteSelectionProp d p s e).1 p =
      some (T.take s ++ T.drop e) := by
    simp [getProp, hd1props, objGet_objSet_self]
  -- the reinserted text restores T
  have htake : (T.take s ++ T.drop e).take s = T.take s :=
    List.take_left' (by simp [List.length_take]; omega)
  have hdrop : (T.take s ++ T.drop e).drop s = T.drop e :=
    List.drop_left' (by simp [List.length_take]; omega)
  have htext : spliceInsert ((getProp (deleteSelectionProp d p s e).1 p).getD [])
      s ((T.drop s).take (e - s)) = T := by
    rw [hget1]
    simp only [Option.getD_some, spliceInsert, htake, hdrop]
    have hmid : (T.drop s).take (e - s) ++ T.drop e =
        T.drop s := by
      have h1 : T.drop e = (T.drop s).drop (e - s) := by
        rw [List.drop_drop]
        congr 1
        omega
      rw [h1, List.take_append_drop]
    rw [List.append_assoc, hmid, List.take_append_drop]
  rw [Except.map]
  simp only [htext]
  -- the annotations come back to their original offsets
  have hannos : ((deleteSelectionProp d p s e).1.annos.map fun a =>
      if a.path = p then insertedTextAnno s ((T.drop s).take (e - s)).length a
      else a) = d.annos := by
    rw [hd1annos, List.map_filterMap]
    apply filterMap_id_of_mem
    intro a ha
    by_cases hp : a.path = p
    · obtain ⟨hw, hs2, he2⟩ := hA a ha hp
      rw [if_pos hp]
      rcases he2 with he2 | he2
      · -- the annotation ends strictly before the range: untouched twice
        have h1 : deletedTextAnno s e a = some a := by
          simp only [deletedTextAnno]
          rw [if_pos (by omega)]
        rw [h1, Option.map_some']
        congr 1
        rw [if_pos hp]
        simp only [insertedTextAnno]
        rw [if_neg (by omega), if_pos (by omega)]
      · rcases hs2 with hs2 | hs2
        · -- the annotation spans the range: end shrunk, then regrown
          have h1 : deletedTextAnno s e a =
              some { a with endOff := a.endOff - (e - s) } := by
            simp only [deletedTextAnno]
            rw [if_neg (by omega), if_neg (by omega), if_neg (by omega),
              if_neg (by omega), if_neg (by omega)]
          rw [h1, Option.map_some']
          congr 1
          rw [if_pos hp]
          simp only [insertedTextAnno, hslice]
          rw [if_neg (by omega),
            if_neg (by omega)]
          have heq : a.endOff - (e - s) + (e - s) = a.endOff := by omega
          rw [heq]
        · -- the annotation lies strictly after the range: shifted left, then right
          have h1 : deletedTextAnno s e a =
              some { a with startOff := a.startOff - (e - s),
                            endOff := a.endOff - (e - s) } := by
            simp only [deletedTextAnno]
            rw [if_neg (by omega), if_pos (by omega)]
          rw [h1, Option.map_some']
          congr 1
          rw [if_pos hp]
          simp only [insertedTextAnno, hslice]
          rw [if_pos (by omega)]
          have heq1 : a.startOff - (e - s) + (e - s) = a.startOff := by omega
          have heq2 : a.endOff - (e - s) + (e - s) = a.endOff := by omega
          rw [heq1, heq2]
    · rw [if_neg hp, Option.map_some']
      congr 1
      rw [if_neg hp]
  rw [hannos]
  simp [getProp, objGet_objSet_self]

/-- Witness for the amended C5 at a concrete input: text "abcd", annotation
[0, 4] spanning the deleted range [1, 3) strictly on both sides; the round
trip restores the text and the annotation offsets. -/
theorem roundTrip_amended_witness :
    (1:Nat) < 3 ∧ (3:Nat) ≤ 4 ∧
    (insertText
        (deleteSelectionProp
          ({ props := [(["p"], ['a','b','c','d'])],
             annos := [{ aid := "a0", path := ["p"], startOff := 0, endOff := 4 }] } : PDoc)
          ["p"] 1 3).1
        (deleteSelectionProp
          ({ props := [(["p"], ['a','b','c','d'])],
             annos := [{ aid := "a0", path := ["p"], startOff := 0, endOff := 4 }] } : PDoc)
          ["p"] 1 3).2
        ((['a','b','c','d'].drop 1).take (3 - 1))).map
        (fun r => (getProp r.1 ["p"], r.1.annos)) =
      Except.ok (some ['a','b','c','d'],
        [{ aid := "a0", path := ["p"], startOff := 0, endOff := 4 }]) := by
  refine ⟨by decide, by decide, ?_⟩
  exact roundTrip_amended
    ({ props := [(["p"], ['a','b','c','d'])],
       annos := [{ aid := "a0", path := ["p"], startOff := 0, endOff := 4 }] } : PDoc)
    ["p"] 1 3 ['a','b','c','d'] rfl (by decide) (by decide) (by decide)

theorem objGet_filter_out {β : Type} (l : List (String × β))
    (sel : List String) (id : String) (h : id ∈ sel) :
    objGet (l.filter (fun kv => kv.1 ∉ sel)) id = none := by
  induction l with
  | nil => rfl
  | cons kv rest ih =>
    rw [List.filter_cons]
    by_cases hk : kv.1 ∈ sel
    · rw [if_neg (by simp [hk])]
      exact ih
    · rw [if_pos (by simp [hk])]
      have hne2 : kv.1 ≠ id := fun he => hk (by rw [he]; exact h)
      simp only [objGet, if_neg hne2]
      exact ih

/-- C2: for a container selection whose selected nodes are all fully covered
(start offset 0 in the first node, end offset at the last node's full text
length), deleteSelection removes all selected nodes, creates exactly one new
node of the schema's default text type with empty text, inserts it at the
container position of the first removed node, and returns a selection
collapsed at offset 0 inside that new node. -/
theorem deleteContainerSel_fullyCovered (d : CDoc)
    (pre selIds post : List String) (i j : Nat) (endId freshId : String)
    (endNode : CNode)
    (hc : d.container = pre ++ selIds ++ post)
    (hi : i = pre.length)
    (hj : j + 1 = pre.length + selIds.length)
    (hne : selIds ≠ [])
    (hlast : selIds.getLast? = some endId)
    (hnode : objGet d.nodes endId = some endNode)
    (hfresh : freshId ∉ selIds) :
    (deleteContainerSel d i j 0 endNode.content.length freshId).1.container =
        pre ++ [freshId] ++ post ∧
    (deleteContainerSel d i j 0 endNode.content.length freshId).1.nodes =
        (freshId, { nid := freshId, ntype := d.defaultTextType, content := [] })
          :: d.nodes.filter (fun kv => kv.1 ∉ selIds) ∧
    objGet (deleteContainerSel d i j 0 endNode.content.length freshId).1.nodes
        freshId =
      some { nid := freshId, ntype := d.defaultTextType, content := [] } ∧
    (∀ id ∈ selIds,
      objGet (deleteContainerSel d i j 0 endNode.content.length freshId).1.nodes
          id = none) ∧
    (deleteContainerSel d i j 0 endNode.content.length freshId).2 =
      Sel.prop [freshId, "content"] 0 0 := by
  have hpos : 0 < selIds.length := List.length_pos.mpr hne
  have hdropi : d.container.drop i = selIds ++ post := by
    rw [hc, hi, List.append_assoc, List.drop_left]
  have hselIds : (d.container.drop i).take (j + 1 - i) = selIds := by
    rw [hdropi]
    have : j + 1 - i = selIds.length := by omega
    rw [this, List.take_left]
  have hgetj : d.container.get? j = some endId := by
    rw [hc, List.get?_eq_getElem?, List.append_assoc]
    rw [List.getElem?_append_right (show pre.length ≤ j by omega)]
    rw [List.getElem?_append_left (show j - pre.length < selIds.length by omega)]
    have hj2 : j - pre.length = selIds.length - 1 := by omega
    rw [hj2, ← List.getLast?_eq_getElem?]
    exact hlast
  have hendId : (d.container.get? j).getD "" = endId := by rw [hgetj]; rfl
  have hendLen :
      ((objGet d.nodes ((d.container.get? j).getD "")).map
        (fun n => n.content.length)).getD 0 = endNode.content.length := by
    rw [hendId, hnode]
    rfl
  have hcond2 : (True ∧ endNode.content.length =
      ((objGet d.nodes ((d.container.get? j).getD "")).map
        (fun n => n.content.length)).getD 0) := ⟨trivial, hendLen.symm⟩
  have htakei : d.container.take i = pre := by
    rw [hc, hi, List.append_assoc, List.take_left]
  have hdropj : d.container.drop (j + 1) = post := by
    rw [hc, hj]
    have : pre.length + selIds.length = (pre ++ selIds).length := by
      simp [List.length_append]
    rw [this, List.drop_left]
  refine ⟨?_, ?_, ?_, ?_, ?_⟩
  · simp only [deleteContainerSel, hselIds]
    rw [if_pos hcond2, htakei, hdropj]
  · simp only [deleteContainerSel, hselIds]
    rw [if_pos hcond2]
  · simp only [deleteContainerSel, hselIds]
    rw [if_pos hcond2]
    simp [objGet]
  · intro id hid
    have hne2 : freshId ≠ id := fun he => hfresh (by rw [he]; exact hid)
    simp only [deleteContainerSel, hselIds]
    rw [if_pos hcond2]
    simp only [objGet, if_neg hne2]
    exact objGet_filter_out d.nodes selIds id hid
  · simp only [deleteContainerSel, hselIds]
    rw [if_pos hcond2]

/-- Witness for C2 at a concrete input mirroring the container test: from a
container [p1, p2, p3] the fully covered selection over p2..p3 collapses to a
fresh empty default-text node at container position 1. -/
theorem deleteContainerSel_fullyCovered_witness :
    (deleteContainerSel
      ({ container := ["p1", "p2", "p3"],
         nodes := [("p1", { nid := "p1", ntype := "paragraph", content := ['x'] }),
           ("p2", { nid := "p2", ntype := "paragraph", content := ['a'] }),
           ("p3", { nid := "p3", ntype := "paragraph", content := ['a','b'] })],
         defaultTextType := "paragraph" } : CDoc) 1 2 0 2 "new1").1.container =
      ["p1", "new1"] ∧
    objGet (deleteContainerSel
      ({ container := ["p1", "p2", "p3"],
         nodes := [("p1", { nid := "p1", ntype := "paragraph", content := ['x'] }),
           ("p2", { nid := "p2", ntype := "paragraph", content := ['a'] }),
           ("p3", { nid := "p3", ntype := "paragraph", content := ['a','b'] })],
         defaultTextType := "paragraph" } : CDoc) 1 2 0 2 "new1").1.nodes "new1" =
      some { nid := "new1", ntype := "paragraph", content := [] } ∧
    objGet (deleteContainerSel
      ({ container := ["p1", "p2", "p3"],
         nodes := [("p1", { nid := "p1", ntype := "paragraph", content := ['x'] }),
           ("p2", { nid := "p2", ntype := "paragraph", content := ['a'] }),
           ("p3", { nid := "p3", ntype := "paragraph", content := ['a','b'] })],
         defaultTextType := "paragraph" } : CDoc) 1 2 0 2 "new1").1.nodes "p2" =
      none ∧
    (deleteContainerSel
      ({ container := ["p1", "p2", "p3"],
         nodes := [("p1", { nid := "p1", ntype := "paragraph", content := ['x'] }),
           ("p2", { nid := "p2", ntype := "paragraph", content := ['a'] }),
           ("p3", { nid := "p3", ntype := "paragraph", content := ['a','b'] })],
         defaultTextType := "paragraph" } : CDoc) 1 2 0 2 "new1").2 =
      Sel.prop ["new1", "content"] 0 0 := by
  have h := deleteContainerSel_fullyCovered
    ({ container := ["p1", "p2", "p3"],
       nodes := [("p1", { nid := "p1", ntype := "paragraph", content := ['x'] }),
         ("p2", { nid := "p2", ntype := "paragraph", content := ['a'] }),
         ("p3", { nid := "p3", ntype := "paragraph", content := ['a','b'] })],
       defaultTextType := "paragraph" } : CDoc)
    ["p1"] ["p2", "p3"] [] 1 2 "p3" "new1"
    { nid := "p3", ntype := "paragraph", content := ['a','b'] }
    rfl rfl rfl (by decide) rfl rfl (by decide)
  exact ⟨h.1, h.2.2.1, h.2.2.2.1 "p2" (by decide), h.2.2.2.2⟩

/-- C8: evaluation of PathAdapter.delete at the failing input.  On the store
{"a": {"b": true}}, deleting the missing path ["a", "c"] with the strict flag
unset throws Invalid path instead of being a no-op, because the guard
`strict && !obj || !obj[key]` parses as `(strict && !obj) || !obj[key]`; the
strict delete of the same path throws the same error, and deleting the
present path ["a", "b"] succeeds with either flag. -/
theorem paDelete_missing_path_throws :
    paDelete (JVal.obj [("a", JVal.obj [("b", JVal.prim true)])])
        ["a", "c"] false = Except.error JsErr.invalidPath ∧
    paDelete (JVal.obj [("a", JVal.obj [("b", JVal.prim true)])])
        ["a", "c"] true = Except.error JsErr.invalidPath ∧
    paDelete (JVal.obj [("a", JVal.obj [("b", JVal.prim true)])])
        ["a", "b"] false = Except.ok (JVal.obj [("a", JVal.obj [])]) ∧
    paDelete (JVal.obj [("a", JVal.obj [("b", JVal.prim true)])])
        ["a", "b"] true = Except.ok (JVal.obj [("a", JVal.obj [])]) ∧
    paDelete (JVal.obj [("a", JVal.obj [("b", JVal.prim true)])])
        ["x", "c"] false = Except.error JsErr.typeErr :=
  ⟨rfl, rfl, rfl, rfl, rfl⟩

/-- C7 counterexample: with three listeners of which the second throws, emit
invokes only the first two; the third listener is not invoked, so the
exception is not isolated to the throwing listener. -/
theorem emit_throw_counterexample :
    emitRun [{ tag := 0, priority := 0, throws := false },
      { tag := 1, priority := 0, throws := true },
      { tag := 2, priority := 0, throws := false }] = ([0, 1], some 1) ∧
    ¬ (2 ∈ (emitRun [{ tag := 0, priority := 0, throws := false },
      { tag := 1, priority := 0, throws := true },
      { tag := 2, priority := 0, throws := false }]).1) := by
  refine ⟨by decide, by decide⟩

/-- C7 amended: when a listener throws during emit the exception propagates
and the listeners after the first throwing one are not invoked; the invoked
listeners are exactly the prefix up to and including the first throwing one.
The emitter's binding state is untouched by emit (the loop runs over a clone
of the bindings list), so subsequent events see the full listener list. -/
theorem emit_throw_amended (bs : List EBinding) :
    (emitState bs).2 = bs ∧
    (emitRun bs).2 = (bs.find? (fun b => b.throws)).map (fun b => b.tag) ∧
    (emitRun bs).1 =
      ((bs.takeWhile (fun b => !b.throws)).map (fun b => b.tag)) ++
        ((bs.find? (fun b => b.throws)).map (fun b => b.tag)).toList := by
  refine ⟨rfl, ?_, ?_⟩
  · induction bs with
    | nil => rfl
    | cons b rest ih =>
      by_cases hb : b.throws
      · simp [emitRun, hb, List.find?_cons]
      · have hb' : b.throws = false := by simpa using hb
        simp [emitRun, hb', List.find?_cons, ih]
  · induction bs with
    | nil => rfl
    | cons b rest ih =>
      by_cases hb : b.throws
      · simp [emitRun, hb, List.takeWhile_cons, List.find?_cons]
      · have hb' : b.throws = false := by simpa using hb
        simp [emitRun, hb', List.takeWhile_cons, List.find?_cons, ih]

/-! ## Sublist position helpers for the emitter ordering proof -/

theorem pair_sublist_of_get {α : Type} : ∀ (l : List α) (i j : Nat)
    (hi : i < l.length) (hj : j < l.length), i < j →
    List.Sublist [l.get ⟨i, hi⟩, l.get ⟨j, hj⟩] l := by
  intro l
  induction l with
  | nil => intro i j hi _ _; simp at hi
  | cons x t ih =>
    intro i j hi hj hij
    cases i with
    | zero =>
      cases j with
      | zero => omega
      | succ j' =>
        simp only [List.get]
        exact List.Sublist.cons₂ x
          (List.singleton_sublist.mpr (List.get_mem t j' (by simpa using hj)))
    | succ i' =>
      cases j with
      | zero => omega
      | succ j' =>
        simp only [List.get]
        exact List.Sublist.cons x
          (ih i' j' (by simpa using hi) (by simpa using hj) (by omega))

theorem get_of_pair_sublist {α : Type} {a b : α} : ∀ {l : List α},
    List.Sublist [a, b] l → ∃ i j, ∃ (hi : i < l.length) (hj : j < l.length),
      i < j ∧ l.get ⟨i, hi⟩ = a ∧ l.get ⟨j, hj⟩ = b := by
  intro l
  induction l with
  | nil => intro h; exact absurd h (by simp)
  | cons x t ih =>
    intro h
    cases h with
    | cons _ h' =>
      obtain ⟨i, j, hi, hj, hij, ha, hb⟩ := ih (by assumption)
      exact ⟨i+1, j+1, by simpa using hi, by simpa using hj, by omega, ha, hb⟩
    | cons₂ _ h' =>
      have hbmem : b ∈ t := List.singleton_sublist.mp (by assumption)
      obtain ⟨⟨j, hj⟩, hbj⟩ := List.mem_iff_get.mp hbmem
      exact ⟨0, j+1, by simp, by simpa using hj, by omega, rfl, hbj⟩

theorem pair_sublist_of_mem_ne {α : Type} {x y : α} {l : List α}
    (hx : x ∈ l) (hy : y ∈ l) (hne : x ≠ y) :
    List.Sublist [x, y] l ∨ List.Sublist [y, x] l := by
  obtain ⟨⟨i, hi⟩, hix⟩ := List.mem_iff_get.mp hx
  obtain ⟨⟨j, hj⟩, hjy⟩ := List.mem_iff_get.mp hy
  rcases Nat.lt_trichotomy i j with h | h | h
  · left
    rw [← hix, ← hjy]
    exact pair_sublist_of_get l i j hi hj h
  · exfalso
    apply hne
    rw [← hix, ← hjy]
    subst h
    rfl
  · right
    rw [← hix, ← hjy]
    exact pair_sublist_of_get l j i hj hi h

theorem eq_of_pair_sublist_both {α : Type} {x y : α} {l : List α}
    (hnd : l.Nodup) (hxy : List.Sublist [x, y] l) (hyx : List.Sublist [y, x] l) :
    x = y := by
  by_contra hne
  obtain ⟨i, j, hi, hj, hij, hix, hjy⟩ := get_of_pair_sublist hxy
  obtain ⟨i2, j2, hi2, hj2, hij2, hiy, hjx⟩ := get_of_pair_sublist hyx
  have hinj := List.nodup_iff_injective_get.mp hnd
  have e1 : (⟨i, hi⟩ : Fin l.length) = ⟨j2, hj2⟩ := hinj (hix.trans hjx.symm)
  have e2 : (⟨j, hj⟩ : Fin l.length) = ⟨i2, hi2⟩ := hinj (hjy.trans hiy.symm)
  have v1 : i = j2 := congrArg Fin.val e1
  have v2 : j = i2 := congrArg Fin.val e2
  omega

theorem lePriorityDesc_trans : ∀ (a b c : EBinding),
    lePriorityDesc a b → lePriorityDesc b c → lePriorityDesc a c := by
  intro a b c hab hbc
  simp only [lePriorityDesc, decide_eq_true_eq] at *
  omega

theorem lePriorityDesc_total : ∀ (a b : EBinding),
    lePriorityDesc a b || lePriorityDesc b a := by
  intro a b
  simp only [lePriorityDesc]
  by_cases h : b.priority ≤ a.priority
  · simp [h]
  · simp [h, le_of_lt (lt_of_not_le h)]

/-- Emit invokes every listener when none throws. -/
theorem emitRun_no_throw (bs : List EBinding)
    (h : ∀ b ∈ bs, b.throws = false) :
    emitRun bs = (bs.map (fun b => b.tag), none) := by
  induction bs with
  | nil => rfl
  | cons b rest ih =>
    have hb := h b (by simp)
    simp only [emitRun, hb, Bool.false_eq_true, if_false, List.map_cons]
    rw [ih (fun x hx => h x (by simp [hx]))]

/-- One registration step keeps the binding list sorted by descending
priority, keeps ties in registration order, and permutes the pushed
binding in. -/
theorem regStep_invariant (bs : List EBinding) (k : Nat) (r : Reg)
    (_h1 : bs.Pairwise (fun a b => lePriorityDesc a b))
    (h2 : bs.Pairwise (fun a b => a.priority = b.priority → a.tag < b.tag))
    (h3 : ∀ b ∈ bs, b.tag < k)
    (h4 : (bs.map (fun b => b.tag)).Nodup) :
    (regStep bs k r).Pairwise (fun a b => lePriorityDesc a b) ∧
    (regStep bs k r).Pairwise (fun a b => a.priority = b.priority → a.tag < b.tag) ∧
    (regStep bs k r).Perm
      (bs ++ [{ tag := k, priority := effPriority r, throws := false }]) ∧
    (∀ b ∈ regStep bs k r, b.tag < k + 1) ∧
    ((regStep bs k r).map (fun b => b.tag)).Nodup := by
  set nb : EBinding := { tag := k, priority := effPriority r, throws := false } with hnb
  have hperm : (regStep bs k r).Perm (bs ++ [nb]) :=
    List.mergeSort_perm (bs ++ [nb]) lePriorityDesc
  have hnodup_tags_in : ((bs ++ [nb]).map (fun b => b.tag)).Nodup := by
    rw [List.map_append, List.nodup_append]
    refine ⟨h4, by simp, ?_⟩
    intro t ht
    simp only [List.map_cons, List.map_nil, List.mem_singleton]
    intro he
    obtain ⟨b, hb, hbt⟩ := List.mem_map.mp ht
    have := h3 b hb
    omega
  have hnodup_tags_out : ((regStep bs k r).map (fun b => b.tag)).Nodup :=
    ((hperm.map (fun b => b.tag)).nodup_iff).mpr hnodup_tags_in
  have hnodup_in : (bs ++ [nb]).Nodup := List.Nodup.of_map _ hnodup_tags_in
  have hnodup_out : (regStep bs k r).Nodup := (hperm.nodup_iff).mpr hnodup_in
  have hinput2 : (bs ++ [nb]).Pairwise
      (fun a b => a.priority = b.priority → a.tag < b.tag) := by
    rw [List.pairwise_append]
    refine ⟨h2, by simp, ?_⟩
    intro a ha b hb
    simp only [List.mem_singleton] at hb
    subst hb
    intro _
    exact h3 a ha
  refine ⟨?_, ?_, hperm, ?_, hnodup_tags_out⟩
  · exact List.sorted_mergeSort lePriorityDesc_trans lePriorityDesc_total (bs ++ [nb])
  · rw [List.pairwise_iff_forall_sublist]
    intro x y hxy hpeq
    have hxout : x ∈ regStep bs k r := hxy.subset (by simp)
    have hyout : y ∈ regStep bs k r := hxy.subset (by simp)
    have hxin : x ∈ bs ++ [nb] := hperm.subset hxout
    have hyin : y ∈ bs ++ [nb] := hperm.subset hyout
    have hne : x ≠ y := by
      intro he
      subst he
      exact (List.pairwise_iff_forall_sublist.mp hnodup_out hxy) rfl
    rcases pair_sublist_of_mem_ne hxin hyin hne with hin | hin
    · exact List.pairwise_iff_forall_sublist.mp hinput2 hin hpeq
    · exfalso
      have hle : lePriorityDesc y x = true := by
        simp only [lePriorityDesc, decide_eq_true_eq]
        omega
      have hout2 : List.Sublist [y, x] (regStep bs k r) :=
        List.pair_sublist_mergeSort lePriorityDesc_trans lePriorityDesc_total
          hle hin
      exact hne (eq_of_pair_sublist_both hnodup_out hxy hout2)
  · intro b hb
    have : b ∈ bs ++ [nb] := hperm.subset hb
    rcases List.mem_append.mp this with h | h
    · have := h3 b h
      omega
    · simp only [List.mem_singleton] at h
      subst h
      exact Nat.lt_succ_self k

theorem regAux_invariant : ∀ (regs : List Reg) (k : Nat) (bs : List EBinding),
    bs.Pairwise (fun a b => lePriorityDesc a b) →
    bs.Pairwise (fun a b => a.priority = b.priority → a.tag < b.tag) →
    (∀ b ∈ bs, b.tag < k) →
    (bs.map (fun b => b.tag)).Nodup →
    (regAux k bs regs).Pairwise (fun a b => lePriorityDesc a b) ∧
    (regAux k bs regs).Pairwise
      (fun a b => a.priority = b.priority → a.tag < b.tag) ∧
    (regAux k bs regs).Perm (bs ++ expectedBindings k regs) := by
  intro regs
  induction regs with
  | nil =>
    intro k bs h1 h2 _ _
    exact ⟨h1, h2, by simp [regAux, expectedBindings]⟩
  | cons r rest ih =>
    intro k bs h1 h2 h3 h4
    obtain ⟨s1, s2, s3, s4, s5⟩ := regStep_invariant bs k r h1 h2 h3 h4
    obtain ⟨t1, t2, t3⟩ := ih (k+1) (regStep bs k r) s1 s2 s4 s5
    refine ⟨t1, t2, ?_⟩
    simp only [regAux]
    have hstep : (regStep bs k r ++ expectedBindings (k+1) rest).Perm
        (bs ++ expectedBindings k (r :: rest)) := by
      rw [show bs ++ expectedBindings k (r :: rest) =
        (bs ++ [{ tag := k, priority := effPriority r, throws := false }]) ++
          expectedBindings (k+1) rest from by rw [List.append_assoc]; rfl]
      exact s3.append_right _
    exact t3.trans hstep

/-- C9 counterexample: a listener registered first through the four-argument
`on` with priority 5 and a listener registered second through `connect` with
priority 3 are invoked in the order second-then-first, because `on` never
reads its options (its `arguments.length === 3` guard is false when options
are passed) and records priority 0; the claimed descending-priority order
would be first-then-second. -/
theorem priority_on_counterexample :
    (emitRun (registerAll
      [{ requested := 5, viaOn := true },
       { requested := 3, viaOn := false }])).1 = [1, 0] ∧
    effPriority { requested := 5, viaOn := true } = 0 ∧
    ¬ ((emitRun (registerAll
      [{ requested := 5, viaOn := true },
       { requested := 3, viaOn := false }])).1 = [0, 1]) := by
  refine ⟨?_, by decide, ?_⟩ <;>
    simp [registerAll, regAux, regStep, jsSortDesc, List.mergeSort,
      effPriority, emitRun, lePriorityDesc]

/-- C9 amended: for every event, listeners registered through single-event
connect calls or through `on` are invoked by emit in descending order of
their recorded priorities, with listeners of equal priority invoked in
registration order (default priority 0); a priority passed in the options of
the four-argument `on` is not read and such a binding is recorded with
priority 0. -/
theorem registerAll_dispatch_order (regs : List Reg) :
    (emitRun (registerAll regs)).1 = (registerAll regs).map (fun b => b.tag) ∧
    (registerAll regs).Pairwise (fun a b => b.priority ≤ a.priority) ∧
    (registerAll regs).Pairwise
      (fun a b => a.priority = b.priority → a.tag < b.tag) ∧
    (registerAll regs).Perm (expectedBindings 0 regs) := by
  obtain ⟨h1, h2, h3⟩ := regAux_invariant regs 0 []
    (by simp) (by simp) (by simp) (by simp)
  have hperm : (registerAll regs).Perm (expectedBindings 0 regs) := by
    simpa [registerAll] using h3
  have hthrows : ∀ b ∈ registerAll regs, b.throws = false := by
    intro b hb
    have hb2 : b ∈ expectedBindings 0 regs := hperm.subset hb
    clear hperm hb h1 h2 h3
    revert hb2
    generalize 0 = k
    induction regs generalizing k with
    | nil => intro h; simp [expectedBindings] at h
    | cons r rest ih =>
      intro h
      simp only [expectedBindings, List.mem_cons] at h
      rcases h with h | h
      · rw [h]
      · exact ih (k+1) h
  have h2' : (registerAll regs).Pairwise
      (fun a b => a.priority = b.priority → a.tag < b.tag) := by
    simpa [registerAll] using h2
  have h1' : (registerAll regs).Pairwise (fun a b => lePriorityDesc a b) := by
    simpa [registerAll] using h1
  refine ⟨?_, ?_, h2', hperm⟩
  · rw [emitRun_no_throw _ hthrows]
  · refine h1'.imp ?_
    intro a b hab
    simpa [lePriorityDesc] using hab

/-! ## NodeIndex lemmas -/

theorem bucketLookup_paSet2 (idx : NIndex) (v id : String) (n : DNode)
    (v' id' : String) :
    bucketLookup (paSet2 idx v id n) v' id' =
      if v' = v ∧ id' = id then some n else bucketLookup idx v' id' := by
  simp only [bucketLookup, paSet2, objGet_objSet]
  by_cases hv : v' = v
  · simp only [hv, if_pos rfl, true_and, eq_self_iff_true, if_true,
      Option.some_bind]
    rw [objGet_objSet]
    by_cases hid : id' = id
    · simp [hid]
    · simp only [hid, if_false]
      cases objGet idx v with
      | none => rfl
      | some b => rfl
  · simp only [hv, if_false, false_and]

theorem bucketLookup_paDelete2 (idx : NIndex) (v id : String) (n : DNode)
    (h : bucketLookup idx v id = some n) :
    ∃ idx', paDelete2 idx v id = Except.ok idx' ∧
      ∀ v' id', bucketLookup idx' v' id' =
        if v' = v ∧ id' = id then none else bucketLookup idx v' id' := by
  simp only [bucketLookup] at h
  cases hb : objGet idx v with
  | none => rw [hb] at h; exact absurd h (by simp)
  | some b =>
    rw [hb] at h
    simp only [Option.some_bind] at h
    refine ⟨objSet idx v (objDel b id), ?_, ?_⟩
    · simp only [paDelete2, hb, h]
    · intro v' id'
      simp only [bucketLookup, objGet_objSet]
      by_cases hv : v' = v
      · simp only [hv, if_pos rfl, true_and, eq_self_iff_true, if_true,
          Option.some_bind, hb]
        by_cases hid : id' = id
        · simp [hid, objGet_objDel]
        · simp [hid, objGet_objDel]
      · simp only [hv, if_false, false_and]

theorem bucketLookup_setValues (vs : List String) :
    ∀ (idx : NIndex) (id0 : String) (n : DNode) (v id : String),
    bucketLookup (setValues idx id0 n vs) v id =
      if id = id0 ∧ v ∈ vs then some n else bucketLookup idx v id := by
  induction vs with
  | nil =>
    intro idx id0 n v id
    simp [setValues]
  | cons w vs ih =>
    intro idx id0 n v id
    show bucketLookup (setValues (paSet2 idx w id0 n) id0 n vs) v id = _
    rw [ih]
    by_cases hid : id = id0
    · by_cases hv : v ∈ vs
      · simp [hid, hv]
      · rw [bucketLookup_paSet2]
        by_cases hw : v = w
        · simp [hid, hv, hw]
        · simp [hid, hv, hw]
    · simp only [hid, false_and, if_false]
      rw [bucketLookup_paSet2]
      simp [hid]

theorem delValues_ok (vs : List String) :
    ∀ (idx : NIndex) (id0 : String),
    vs.Nodup →
    (∀ v ∈ vs, ∃ n, bucketLookup idx v id0 = some n) →
    ∃ idx', delValues idx id0 vs = Except.ok idx' ∧
      ∀ v id, bucketLookup idx' v id =
        if id = id0 ∧ v ∈ vs then none else bucketLookup idx v id := by
  induction vs with
  | nil =>
    intro idx id0 _ _
    exact ⟨idx, rfl, by intro v id; simp⟩
  | cons w vs ih =>
    intro idx id0 hnd hpres
    obtain ⟨n, hn⟩ := hpres w (by simp)
    obtain ⟨idx1, hdel, hchar⟩ := bucketLookup_paDelete2 idx w id0 n hn
    have hnd1 : vs.Nodup := (List.nodup_cons.mp hnd).2
    have hwnot : w ∉ vs := (List.nodup_cons.mp hnd).1
    have hpres1 : ∀ v ∈ vs, ∃ m, bucketLookup idx1 v id0 = some m := by
      intro v hv
      obtain ⟨m, hm⟩ := hpres v (by simp [hv])
      refine ⟨m, ?_⟩
      rw [hchar]
      rw [if_neg (by intro hc; exact hwnot (hc.1 ▸ hv))]
      exact hm
    obtain ⟨idx2, hrun, hchar2⟩ := ih idx1 id0 hnd1 hpres1
    refine ⟨idx2, ?_, ?_⟩
    · show (match paDelete2 idx w id0 with
        | Except.error e => Except.error e
        | Except.ok idx1 => delValues idx1 id0 vs) = Except.ok idx2
      rw [hdel]
      exact hrun
    · intro v id
      rw [hchar2, hchar]
      by_cases hid : id = id0
      · by_cases hv : v ∈ vs
        · simp [hid, hv]
        · by_cases hw : v = w
          · simp [hid, hv, hw]
          · simp [hid, hv, hw]
      · simp [hid]

theorem findNode_append_single (st : Store) (n : DNode) (id : String) :
    findNode (st ++ [n]) id =
      match findNode st id with
      | some m => some m
      | none => if n.nodeId = id then some n else none := by
  induction st with
  | nil =>
    simp only [List.nil_append, findNode, List.find?]
    cases hn : decide (n.nodeId = id) with
    | true => simp_all
    | false => simp_all
  | cons m rest ih =>
    simp only [findNode, List.cons_append, List.find?] at *
    cases hm : decide (m.nodeId = id) with
    | true => simp_all
    | false => simp_all

theorem findNode_append_none {st : Store} {id : String} (n : DNode)
    (h : findNode st id = none) :
    findNode (st ++ [n]) id = if n.nodeId = id then some n else none := by
  rw [findNode_append_single, h]

theorem findNode_append_some {st : Store} {id : String} {m : DNode} (n : DNode)
    (h : findNode st id = some m) :
    findNode (st ++ [n]) id = some m := by
  rw [findNode_append_single, h]

theorem findNode_filter_ne (st : Store) (id id' : String) :
    findNode (st.filter (fun m => m.nodeId ≠ id)) id' =
      if id' = id then none else findNode st id' := by
  induction st with
  | nil => simp [findNode]
  | cons m rest ih =>
    by_cases hm : m.nodeId = id
    · rw [List.filter_cons_of_neg (by simp [hm])]
      rw [ih]
      by_cases h : id' = id
      · simp [h]
      · rw [if_neg h, if_neg h]
        simp only [findNode, List.find?]
        rw [show (decide (m.nodeId = id') = false) from by
          simp
          intro hc
          exact absurd (hc ▸ hm) h]
    · rw [List.filter_cons_of_pos (by simp [hm])]
      simp only [findNode, List.find?] at *
      cases hd : decide (m.nodeId = id') with
      | true =>
        have : id' ≠ id := by
          simp at hd
          intro hc
          exact hm (hd.symm ▸ hc)
        simp_all
      | false => simp_all

theorem findNode_map_update (st : Store) (id id' : String) (f : DNode → DNode)
    (hf : ∀ m, (f m).nodeId = m.nodeId) :
    findNode (st.map (fun m => if m.nodeId = id then f m else m)) id' =
      (findNode st id').map (fun m => if m.nodeId = id then f m else m) := by
  induction st with
  | nil => simp [findNode]
  | cons m rest ih =>
    simp only [findNode, List.map_cons, List.find?] at *
    have hid2 : (if m.nodeId = id then f m else m).nodeId = m.nodeId := by
      by_cases h : m.nodeId = id
      · simp [h, hf]
      · simp [h]
    cases hd : decide (m.nodeId = id') with
    | true =>
      have : decide ((if m.nodeId = id then f m else m).nodeId = id') = true := by
        simp_all
      simp_all
    | false =>
      have : decide ((if m.nodeId = id then f m else m).nodeId = id') = false := by
        simp_all
      simp_all

theorem findNode_mem {st : Store} {id : String} {n : DNode}
    (h : findNode st id = some n) : n ∈ st ∧ n.nodeId = id := by
  have h1 := List.find?_some h
  have h2 := List.mem_of_find?_eq_some h
  simp at h1
  exact ⟨h2, h1⟩

theorem findNode_none_iff (st : Store) (id : String) :
    findNode st id = none ↔ ∀ n ∈ st, n.nodeId ≠ id := by
  simp [findNode, List.find?_eq_none]

/-- InSync is preserved by indexing one fresh node (the shared step of reset
and of a create notification). -/
theorem inSync_create_step (sel : String → Bool) (st : Store) (idx : NIndex)
    (n : DNode) (hs : InSync sel st idx) (hfresh : findNode st n.nodeId = none) :
    InSync sel (st ++ [n]) (if sel n.nodeType then niCreate idx n else idx) := by
  intro v id
  rw [expectedLookup]
  by_cases hid : id = n.nodeId
  · rw [hid, findNode_append_none n hfresh, if_pos rfl]
    have hold : bucketLookup idx v n.nodeId = none := by
      rw [hs v n.nodeId, expectedLookup, hfresh]
      rfl
    by_cases hsel : sel n.nodeType
    · rw [if_pos hsel]
      show bucketLookup (setValues idx n.nodeId n (normValues n.propVal)) v
        n.nodeId = _
      rw [bucketLookup_setValues]
      by_cases hv : v ∈ normValues n.propVal
      · simp [hv, hsel]
      · simp only [hv, and_false, if_false, hold, Option.some_bind]
    · rw [if_neg hsel, hold]
      simp only [Option.some_bind]
      rw [if_neg (by simp [hsel])]
  · have hne : n.nodeId ≠ id := fun hc => hid hc.symm
    cases hfind : findNode st id with
    | none =>
      rw [findNode_append_none n hfind, if_neg hne]
      have hold : bucketLookup idx v id = none := by
        rw [hs v id, expectedLookup, hfind]
        rfl
      by_cases hsel : sel n.nodeType
      · rw [if_pos hsel]
        show bucketLookup (setValues idx n.nodeId n (normValues n.propVal)) v id = _
        rw [bucketLookup_setValues, if_neg (by intro hc; exact hid hc.1), hold]
        rfl
      · rw [if_neg hsel, hold]
        rfl
    | some m =>
      rw [findNode_append_some n hfind]
      by_cases hsel : sel n.nodeType
      · rw [if_pos hsel]
        show bucketLookup (setValues idx n.nodeId n (normValues n.propVal)) v id = _
        rw [bucketLookup_setValues, if_neg (by intro hc; exact hid hc.1),
          hs v id, expectedLookup, hfind]
      · rw [if_neg hsel, hs v id, expectedLookup, hfind]

theorem inSync_nil : InSync sel [] [] := by
  intro v id
  rfl

/-- The index rebuilt by reset from a well-formed store is in sync with it. -/
theorem inSync_niReset (sel : String → Bool) :
    ∀ (rest done : Store) (idx : NIndex),
    InSync sel done idx →
    ((done ++ rest).map (fun n => n.nodeId)).Nodup →
    InSync sel (done ++ rest)
      (rest.foldl (fun i n => if sel n.nodeType then niCreate i n else i) idx) := by
  intro rest
  induction rest with
  | nil =>
    intro done idx hs _
    simpa using hs
  | cons n rest ih =>
    intro done idx hs hnd
    have hfresh : findNode done n.nodeId = none := by
      rw [findNode_none_iff]
      intro m hm hc
      rw [List.map_append, List.nodup_append] at hnd
      have hmm : n.nodeId ∈ done.map (fun x => x.nodeId) :=
        List.mem_map.mpr ⟨m, hm, hc⟩
      have hnn : n.nodeId ∈ (n :: rest).map (fun x => x.nodeId) := by simp
      exact hnd.2.2 hmm hnn
    have hs1 := inSync_create_step sel done idx n hs hfresh
    have hgoal := ih (done ++ [n])
      (if sel n.nodeType then niCreate idx n else idx) hs1
      (by rw [List.append_assoc]; exact hnd)
    rw [List.append_assoc] at hgoal
    exact hgoal

theorem inSync_reset_full (sel : String → Bool) (st : Store)
    (hnd : (st.map (fun n => n.nodeId)).Nodup) :
    InSync sel st (niReset sel st) := by
  have h := inSync_niReset sel st [] [] inSync_nil (by simpa using hnd)
  simpa [niReset] using h

theorem wfStore_append (st : Store) (n : DNode)
    (hwf : WfStore st) (hfresh : findNode st n.nodeId = none)
    (hnv : (normValues n.propVal).Nodup) : WfStore (st ++ [n]) := by
  constructor
  · rw [List.map_append, List.nodup_append]
    refine ⟨hwf.1, by simp, ?_⟩
    intro a ha hb
    simp only [List.map_cons, List.map_nil, List.mem_singleton] at hb
    obtain ⟨m, hm, hmid⟩ := List.mem_map.mp ha
    rw [findNode_none_iff] at hfresh
    exact hfresh m hm (by rw [hmid, hb])
  · intro m hm
    rcases List.mem_append.mp hm with h | h
    · exact hwf.2 m h
    · simp only [List.mem_singleton] at h
      subst h
      exact hnv

theorem wfStore_filter (st : Store) (id : String) (hwf : WfStore st) :
    WfStore (st.filter (fun m => m.nodeId ≠ id)) := by
  constructor
  · exact ((List.filter_sublist st).map (fun n => n.nodeId)).nodup hwf.1
  · intro m hm
    exact hwf.2 m (List.mem_of_mem_filter hm)

theorem wfStore_map_update (st : Store) (id : String) (nv : PropValue)
    (hwf : WfStore st) (hnv : (normValues nv).Nodup) :
    WfStore (st.map (fun m => if m.nodeId = id then
      { m with propVal := nv } else m)) := by
  constructor
  · have : (st.map (fun m => if m.nodeId = id then
        { m with propVal := nv } else m)).map (fun n => n.nodeId) =
        st.map (fun n => n.nodeId) := by
      rw [List.map_map]
      apply List.map_congr_left
      intro m _
      by_cases h : m.nodeId = id
      · simp [h]
      · simp [h]
    rw [this]
    exact hwf.1
  · intro m hm
    obtain ⟨m0, hm0, hme⟩ := List.mem_map.mp hm
    by_cases h : m0.nodeId = id
    · rw [if_pos h] at hme
      rw [← hme]
      exact hnv
    · rw [if_neg h] at hme
      rw [← hme]
      exact hwf.2 m0 hm0

theorem applyEvt_preserves (sel : String → Bool) (prop : String)
    (st : Store) (idx : NIndex) (ev : DocEvt)
    (hwf : WfStore st) (hs : InSync sel st idx) (hev : WfEvt prop st ev) :
    ∃ idx', applyEvt sel prop (st, idx) ev =
        Except.ok (storeStep prop st ev, idx') ∧
      WfStore (storeStep prop st ev) ∧ InSync sel (storeStep prop st ev) idx' := by
  cases ev with
  | makeNode n =>
    obtain ⟨hfresh, hnv⟩ := hev
    refine ⟨if sel n.nodeType then niCreate idx n else idx, rfl, ?_, ?_⟩
    · exact wfStore_append st n hwf hfresh hnv
    · exact inSync_create_step sel st idx n hs hfresh
  | killNode id =>
    obtain ⟨n, hfind⟩ := Option.isSome_iff_exists.mp hev
    obtain ⟨hmem, hid⟩ := findNode_mem hfind
    by_cases hsel : sel n.nodeType
    · have hpres : ∀ v ∈ normValues n.propVal, ∃ m,
          bucketLookup idx v n.nodeId = some m := by
        intro v hv
        refine ⟨n, ?_⟩
        rw [hs v n.nodeId, expectedLookup, hid, hfind]
        simp [hsel, hv]
      obtain ⟨idx', hdel, hchar⟩ := delValues_ok (normValues n.propVal) idx
        n.nodeId (hwf.2 n hmem) hpres
      refine ⟨idx', ?_, wfStore_filter st id hwf, ?_⟩
      · simp only [applyEvt, hfind]
        rw [if_pos hsel]
        show (match niDelete idx n with
          | Except.error e => Except.error e
          | Except.ok idx' => Except.ok
              (st.filter (fun (m : DNode) => m.nodeId ≠ id), idx')) = _
        rw [show niDelete idx n = Except.ok idx' from hdel]
        rfl
      · intro v id'
        rw [hchar, expectedLookup]
        show _ = (findNode (st.filter (fun m => m.nodeId ≠ id)) id').bind _
        rw [findNode_filter_ne]
        by_cases h : id' = id
        · rw [if_pos h]
          by_cases hv : v ∈ normValues n.propVal
          · rw [if_pos ⟨by rw [h, ← hid], hv⟩]
            rfl
          · rw [if_neg (by intro hc; exact hv hc.2), hs v id',
              expectedLookup, h, hfind]
            simp [hv]
        · rw [if_neg h, if_neg (by intro hc; exact h (by rw [hc.1, hid])),
            hs v id', expectedLookup]
    · refine ⟨idx, ?_, wfStore_filter st id hwf, ?_⟩
      · simp only [applyEvt, hfind]
        rw [if_neg hsel]
        rfl
      · intro v id'
        rw [hs v id', expectedLookup, expectedLookup]
        show (findNode st id').bind _ =
          (findNode (st.filter (fun m => m.nodeId ≠ id)) id').bind _
        rw [findNode_filter_ne]
        by_cases h : id' = id
        · rw [if_pos h, h, hfind]
          simp [hsel]
        · rw [if_neg h]
  | setVal id p nv =>
    obtain ⟨hevsome, hevnd⟩ := hev
    obtain ⟨n, hfind⟩ := Option.isSome_iff_exists.mp hevsome
    obtain ⟨hmem, hid⟩ := findNode_mem hfind
    have hmap : (st.map (fun m => if m.nodeId = id then
        (if p = prop then { m with propVal := nv } else m) else m)) =
        st.map (fun m => if m.nodeId = id then
          (fun m0 => if p = prop then { m0 with propVal := nv } else m0) m
          else m) := rfl
    have hfindmap : ∀ id', findNode (st.map (fun m => if m.nodeId = id then
        (if p = prop then { m with propVal := nv } else m) else m)) id' =
        (findNode st id').map (fun m => if m.nodeId = id then
          (if p = prop then { m with propVal := nv } else m) else m) := by
      intro id'
      exact findNode_map_update st id id'
        (fun m0 => if p = prop then { m0 with propVal := nv } else m0)
        (by intro m; by_cases h : p = prop <;> simp [h])
    by_cases hp : p = prop
    · subst p
      by_cases hsel : sel n.nodeType
      · -- selected node, indexing property updated: re-key the entries
        have hpres : ∀ v ∈ normValues n.propVal, ∃ m,
            bucketLookup idx v n.nodeId = some m := by
          intro v hv
          refine ⟨n, ?_⟩
          rw [hs v n.nodeId, expectedLookup, hid, hfind]
          simp [hsel, hv]
        obtain ⟨idx1, hdel, hchar1⟩ := delValues_ok (normValues n.propVal) idx
          n.nodeId (hwf.2 n hmem) hpres
        have hupd : niUpdate sel prop idx { n with propVal := nv } prop nv
            n.propVal =
            Except.ok (setValues idx1 n.nodeId { n with propVal := nv }
              (normValues nv)) := by
          simp only [niUpdate]
          rw [if_neg (by simp [hsel])]
          show (match delValues idx n.nodeId (normValues n.propVal) with
            | Except.error e => Except.error e
            | Except.ok idx1 => Except.ok (setValues idx1 n.nodeId
                { n with propVal := nv } (normValues nv))) = _
          rw [hdel]
        have hstep : storeStep prop st (DocEvt.setVal id prop nv) =
            st.map (fun (m : DNode) => if m.nodeId = id then
              { m with propVal := nv } else m) := by
          simp [storeStep]
        refine ⟨setValues idx1 n.nodeId { n with propVal := nv }
          (normValues nv), ?_, ?_, ?_⟩
        · simp only [applyEvt, hfind, eq_self_iff_true, if_true]
          rw [hupd, hstep]
        · rw [hstep]
          exact wfStore_map_update st id nv hwf (hevnd rfl)
        · intro v id'
          rw [bucketLookup_setValues, expectedLookup]
          show _ = (findNode (st.map (fun (m : DNode) => if m.nodeId = id then
              (if prop = prop then { m with propVal := nv } else m) else m))
            id').bind _
          rw [hfindmap id']
          by_cases h : id' = id
          · rw [h, hfind]
            simp only [Option.map_some', if_pos hid, eq_self_iff_true, if_true,
              Option.some_bind]
            by_cases hv : v ∈ normValues nv
            · rw [if_pos (And.intro hid.symm hv), if_pos (And.intro hsel hv)]
            · rw [if_neg (by intro hc; exact hv hc.2),
                if_neg (by intro hc; exact hv hc.2)]
              rw [hchar1]
              by_cases hvold : v ∈ normValues n.propVal
              · rw [if_pos (And.intro hid.symm hvold)]
              · rw [if_neg (by intro hc; exact hvold hc.2), hs v id,
                  expectedLookup, hfind]
                simp [hvold]
          · have hne : ¬ (id' = n.nodeId ∧ v ∈ normValues nv) := by
              intro hc
              exact h (by rw [hc.1, hid])
            rw [if_neg hne, hchar1,
              if_neg (by intro hc; exact h (by rw [hc.1, hid])), hs v id',
              expectedLookup]
            cases hfind2 : findNode st id' with
            | none => rfl
            | some m =>
              obtain ⟨_, hmid⟩ := findNode_mem hfind2
              simp only [Option.map_some']
              rw [if_neg (by rw [hmid]; exact h)]
      · -- unselected node: update is a no-op on the index
        have hupd : niUpdate sel prop idx { n with propVal := nv } prop nv
            n.propVal = Except.ok idx := by
          simp only [niUpdate]
          rw [if_pos (Or.inl (by simp [hsel]))]
        have hstep : storeStep prop st (DocEvt.setVal id prop nv) =
            st.map (fun (m : DNode) => if m.nodeId = id then
              { m with propVal := nv } else m) := by
          simp [storeStep]
        refine ⟨idx, ?_, ?_, ?_⟩
        · simp only [applyEvt, hfind, eq_self_iff_true, if_true]
          rw [hupd, hstep]
        · rw [hstep]
          exact wfStore_map_update st id nv hwf (hevnd rfl)
        · intro v id'
          rw [hs v id', expectedLookup, expectedLookup]
          show (findNode st id').bind _ =
            (findNode (st.map (fun (m : DNode) => if m.nodeId = id then
              (if prop = prop then { m with propVal := nv } else m) else m))
              id').bind _
          rw [hfindmap id']
          cases hfind2 : findNode st id' with
          | none => rfl
          | some m =>
            obtain ⟨_, hmid⟩ := findNode_mem hfind2
            simp only [Option.map_some', Option.some_bind]
            by_cases h : id' = id
            · have hmn : m = n := by
                rw [h, hfind] at hfind2
                exact (Option.some.inj hfind2).symm
              rw [hmn, if_pos hid]
              simp only [eq_self_iff_true, if_true]
              simp [hsel]
            · rw [if_neg (show ¬ (m.nodeId = id) from by rw [hmid]; exact h)]
    · -- a different property was updated: both store list and index unchanged
      have hstore : (st.map (fun m => if m.nodeId = id then
          (if p = prop then { m with propVal := nv } else m) else m)) = st := by
        have : ∀ m ∈ st, (if m.nodeId = id then
            (if p = prop then { m with propVal := nv } else m) else m) = m := by
          intro m _
          rw [if_neg hp, ite_self]
        rw [List.map_congr_left this, List.map_id']
      refine ⟨idx, ?_, ?_, ?_⟩
      · simp only [applyEvt, hfind]
        rw [show niUpdate sel prop idx (if p = prop then
            { n with propVal := nv } else n) p nv n.propVal =
          Except.ok idx from by
            simp only [niUpdate]
            rw [if_pos (Or.inr hp)]]
        rfl
      · show WfStore (st.map _)
        rw [hstore]
        exact hwf
      · show InSync sel (st.map _) idx
        rw [hstore]
        exact hs

theorem runEvts_preserves (sel : String → Bool) (prop : String) :
    ∀ (evs : List DocEvt) (st : Store) (idx : NIndex),
    WfStore st → InSync sel st idx → WfEvts prop st evs →
    ∃ st1 idx1, runEvts sel prop (st, idx) evs = Except.ok (st1, idx1) ∧
      WfStore st1 ∧ InSync sel st1 idx1 := by
  intro evs
  induction evs with
  | nil =>
    intro st idx hwf hs _
    exact ⟨st, idx, rfl, hwf, hs⟩
  | cons ev evs ih =>
    intro st idx hwf hs hevs
    obtain ⟨hev, hevs2⟩ := hevs
    obtain ⟨idx', happ, hwf', hs'⟩ :=
      applyEvt_preserves sel prop st idx ev hwf hs hev
    obtain ⟨st1, idx1, hrun, hwf1, hs1⟩ :=
      ih (storeStep prop st ev) idx' hwf' hs' hevs2
    refine ⟨st1, idx1, ?_, hwf1, hs1⟩
    rw [runEvts, List.foldlM_cons, happ]
    exact hrun

/-- NodeIndex.get on a bucket path agrees with the raw two-level lookup: a
missing bucket and an empty bucket both answer none for every id. -/
theorem objGet_niGet (idx : NIndex) (v id : String) :
    objGet (niGet idx (some v)) id = bucketLookup idx v id := by
  simp only [niGet, bucketLookup]
  cases objGet idx v with
  | none => rfl
  | some b => rfl

theorem eq_nil_of_objGet_none {β : Type} (b : List (String × β))
    (h : ∀ id, objGet b id = none) : b = [] := by
  cases b with
  | nil => rfl
  | cons kv rest =>
    have := h kv.1
    simp [objGet] at this

/-- C6: for every NodeIndex (select predicate and indexing property) and
every well-formed sequence of create, delete and update notifications
starting from a reset, the run succeeds, and for every bucket path the index
answers exactly the set of currently existing selected nodes whose indexing
property carries the path's trailing value - equivalently, the incrementally
maintained index answers every lookup exactly as the index produced by a
full reset() rebuild from the final node set. -/
theorem nodeIndex_sync (sel : String → Bool) (prop : String)
    (store0 : Store) (evs : List DocEvt)
    (h0 : WfStore store0) (hevs : WfEvts prop store0 evs) :
    ∃ store1 idx1,
      runEvts sel prop (store0, niReset sel store0) evs =
        Except.ok (store1, idx1) ∧
      (∀ v id, objGet (niGet idx1 (some v)) id =
        expectedLookup sel store1 v id) ∧
      (∀ v id, objGet (niGet idx1 (some v)) id =
        objGet (niGet (niReset sel store1) (some v)) id) := by
  obtain ⟨store1, idx1, hrun, hwf1, hs1⟩ :=
    runEvts_preserves sel prop evs store0 (niReset sel store0) h0
      (inSync_reset_full sel store0 h0.1) hevs
  refine ⟨store1, idx1, hrun, ?_, ?_⟩
  · intro v id
    rw [objGet_niGet]
    exact hs1 v id
  · intro v id
    rw [objGet_niGet, objGet_niGet, hs1 v id,
      inSync_reset_full sel store1 hwf1.1 v id]

/-- Witness for C6 at a concrete run: create a node indexed under "x", then
move it to "y", then look both buckets up; the incremental index agrees with
the rebuild. -/
theorem nodeIndex_sync_witness :
    WfStore ([] : Store) ∧
    WfEvts "type" ([] : Store)
      [DocEvt.makeNode { nodeId := "n1", nodeType := "para", propVal := PropValue.scalar "x" },
       DocEvt.setVal "n1" "type" (PropValue.scalar "y")] ∧
    (∃ store1 idx1,
      runEvts (fun _ => true) "type"
        (([] : Store), niReset (fun _ => true) [])
        [DocEvt.makeNode { nodeId := "n1", nodeType := "para", propVal := PropValue.scalar "x" },
         DocEvt.setVal "n1" "type" (PropValue.scalar "y")] =
        Except.ok (store1, idx1) ∧
      (∀ v id, objGet (niGet idx1 (some v)) id =
        expectedLookup (fun _ => true) store1 v id) ∧
      (∀ v id, objGet (niGet idx1 (some v)) id =
        objGet (niGet (niReset (fun _ => true) store1) (some v)) id)) := by
  have h0 : WfStore ([] : Store) := ⟨by simp, by intro n hn; simp at hn⟩
  have hevs : WfEvts "type" ([] : Store)
      [DocEvt.makeNode { nodeId := "n1", nodeType := "para", propVal := PropValue.scalar "x" },
       DocEvt.setVal "n1" "type" (PropValue.scalar "y")] := by
    refine ⟨⟨rfl, by simp [normValues]⟩, ⟨by rfl, fun _ => by simp [normValues]⟩,
      trivial⟩
  exact ⟨h0, hevs,
    nodeIndex_sync (fun _ => true) "type" [] _ h0 hevs⟩

/-- C10: for a reachable index state, a bucket path under which no selected
current node is indexed answers the empty collection (never undefined or an
error), so callers can always iterate the result; calling get with no path
takes the getAll branch, the merge of all buckets. -/
theorem niGet_empty_bucket (sel : String → Bool) (prop : String)
    (store0 : Store) (evs : List DocEvt)
    (h0 : WfStore store0) (hevs : WfEvts prop store0 evs) :
    ∃ store1 idx1,
      runEvts sel prop (store0, niReset sel store0) evs =
        Except.ok (store1, idx1) ∧
      (∀ v, (∀ n ∈ store1, sel n.nodeType → v ∉ normValues n.propVal) →
        niGet idx1 (some v) = []) ∧
      niGet idx1 none = niGetAll idx1 := by
  obtain ⟨store1, idx1, hrun, hwf1, hs1⟩ :=
    runEvts_preserves sel prop evs store0 (niReset sel store0) h0
      (inSync_reset_full sel store0 h0.1) hevs
  refine ⟨store1, idx1, hrun, ?_, rfl⟩
  intro v hv
  apply eq_nil_of_objGet_none
  intro id
  rw [objGet_niGet, hs1 v id, expectedLookup]
  cases hfind : findNode store1 id with
  | none => rfl
  | some n =>
    obtain ⟨hmem, _⟩ := findNode_mem hfind
    simp only [Option.some_bind]
    rw [if_neg (by intro hc; exact hv n hmem hc.1 hc.2)]

/-- Witness for C10 at a concrete run: after creating one node indexed under
"x", the bucket for "z" is empty. -/
theorem niGet_empty_bucket_witness :
    WfStore ([] : Store) ∧
    WfEvts "type" ([] : Store)
      [DocEvt.makeNode { nodeId := "n1", nodeType := "para", propVal := PropValue.scalar "x" }] ∧
    (∃ store1 idx1,
      runEvts (fun _ => true) "type"
        (([] : Store), niReset (fun _ => true) [])
        [DocEvt.makeNode { nodeId := "n1", nodeType := "para", propVal := PropValue.scalar "x" }] =
        Except.ok (store1, idx1) ∧
      (∀ v, (∀ n ∈ store1, (fun _ => true) n.nodeType →
          v ∉ normValues n.propVal) →
        niGet idx1 (some v) = []) ∧
      niGet idx1 none = niGetAll idx1) := by
  have h0 : WfStore ([] : Store) := ⟨by simp, by intro n hn; simp at hn⟩
  have hevs : WfEvts "type" ([] : Store)
      [DocEvt.makeNode { nodeId := "n1", nodeType := "para", propVal := PropValue.scalar "x" }] := by
    exact ⟨⟨rfl, by simp [normValues]⟩, trivial⟩
  exact ⟨h0, hevs,
    niGet_empty_bucket (fun _ => true) "type" [] _ h0 hevs⟩

end Substance
